import Mathlib

/-!
Verification of the LiteMark bookmark manager's reordering, persistence and
backup logic against its natural-language specification.

The embedding follows the source files:
  - src/vercel/_lib/db.ts      (relational backend: rows with an order column
                                and a created_at timestamp, read back through
                                ORDER BY "order" ASC, created_at ASC)
  - src/api/_lib/db.ts         (JSON document backend: whole-array read/write)
  - src/backend/index.js       (express variant: JSON file store, create and
                                sanitation handlers)
  - src/vercel/backup/import.ts (import pipeline: sanitizeUrl, visible default)

Rows model the bookmarks table; BookmarkRecord models the observable record
shape returned by readBookmarksFromDb (which drops order and created_at).
JS timestamps are modelled as natural numbers (relational created_at) or
strings (JSON createdAt); JS string trim is modelled by jsTrim below.
-/

namespace LiteMark

/-- Database row of the bookmarks table in src/vercel/_lib/db.ts: the record
fields plus the "order" INTEGER column and the created_at timestamp. -/
structure Row where
  id : String
  title : String
  url : String
  category : Option String
  description : Option String
  visible : Bool
  rowOrder : Int
  createdAt : Nat
deriving DecidableEq, Repr

/-- Observable bookmark record as returned by readBookmarksFromDb in
src/vercel/_lib/db.ts (no order column, no timestamp). -/
structure BookmarkRecord where
  id : String
  title : String
  url : String
  category : Option String
  description : Option String
  visible : Bool
deriving DecidableEq, Repr

/-- Input shape accepted by createBookmark / updateBookmark. -/
structure BookmarkInput where
  title : String
  url : String
  category : Option String
  description : Option String
  visible : Bool
deriving DecidableEq, Repr

/-- Model of the JavaScript String.prototype.trim over the character list of
a string: leading and trailing whitespace removed.  Used for every .trim()
call site of the source. -/
def jsTrim (s : String) : String :=
  String.mk
    (((s.data.dropWhile Char.isWhitespace).reverse.dropWhile
        Char.isWhitespace).reverse)

/-- normalizeCategoryValue from src/vercel/_lib/db.ts: a missing or falsy
value (undefined, null, empty string) becomes undefined, otherwise the value
is trimmed and an all-whitespace value also becomes undefined. -/
def normalizeCategoryValue : Option String → Option String
  | none => none
  | some s =>
    if s = "" then none
    else
      let t := jsTrim s
      if t = "" then none else some t

/-- Projection of a database row to the observable record, as performed by
readBookmarksFromDb: category runs through normalizeCategoryValue, the order
column and created_at are dropped. -/
def rowToRecord (r : Row) : BookmarkRecord :=
  { id := r.id, title := r.title, url := r.url
    category := normalizeCategoryValue r.category
    description := r.description, visible := r.visible }

/-- Comparison used by the read query ORDER BY "order" ASC, created_at ASC. -/
def rowLE (a b : Row) : Prop :=
  a.rowOrder < b.rowOrder ∨ (a.rowOrder = b.rowOrder ∧ a.createdAt ≤ b.createdAt)

instance : DecidableRel rowLE := fun a b =>
  inferInstanceAs (Decidable (a.rowOrder < b.rowOrder ∨
    (a.rowOrder = b.rowOrder ∧ a.createdAt ≤ b.createdAt)))

instance : IsTotal Row rowLE := ⟨by intro a b; unfold rowLE; omega⟩

instance : IsTrans Row rowLE := ⟨by intro a b c; unfold rowLE; omega⟩

/-- Strict version of the read ordering; rows with distinct keys relate
strictly one way. -/
def rowLT (a b : Row) : Prop :=
  a.rowOrder < b.rowOrder ∨ (a.rowOrder = b.rowOrder ∧ a.createdAt < b.createdAt)

theorem rowLT_asymm {a b : Row} (h1 : rowLT a b) (h2 : rowLT b a) : False := by
  unfold rowLT at h1 h2; omega

/-- Result order of the SELECT in readBookmarksFromDb. -/
def sortRows (st : List Row) : List Row :=
  List.insertionSort rowLE st

/-- listBookmarks / readBookmarksFromDb from src/vercel/_lib/db.ts: rows in
(order, created_at) order, projected to observable records. -/
def listBookmarks (st : List Row) : List BookmarkRecord :=
  (sortRows st).map rowToRecord

theorem sortRows_perm (st : List Row) : List.Perm (sortRows st) st :=
  List.perm_insertionSort rowLE st

theorem sortRows_sorted (st : List Row) : List.Sorted rowLE (sortRows st) :=
  List.sorted_insertionSort rowLE st

/-- Assignment of a new value to the order column (the SET "order" = i of the
UPDATE statements in src/vercel/_lib/db.ts). -/
def setOrder (n : Int) (r : Row) : Row := { r with rowOrder := n }

/-- Loop body of reorderBookmarks in src/vercel/_lib/db.ts: for each index i
of the requested id sequence, UPDATE bookmarks SET "order" = i WHERE id =
order[i].  The counter argument is the loop index. -/
def reorderSweep : Nat → List String → List Row → List Row
  | _, [], st => st
  | i, bid :: rest, st =>
      reorderSweep (i + 1) rest
        (st.map fun r => if r.id = bid then setOrder i r else r)

/-- reorderBookmarks from src/vercel/_lib/db.ts, as a transformer of the
stored table; the function then re-reads via readBookmarksFromDb, i.e. the
returned value is listBookmarks of this state. -/
def reorderBookmarks (ids : List String) (st : List Row) : List Row :=
  reorderSweep 0 ids st

/-- Index of the last occurrence of an id in the remaining sequence, offset
by the current loop counter; this is the order value the sweep leaves behind
for a row with that id. -/
def lastHit : Nat → List String → String → Option Nat
  | _, [], _ => none
  | i, b :: rest, x =>
    match lastHit (i + 1) rest x with
    | some j => some j
    | none => if x = b then some i else none

/-- Effect of the whole sweep on a single row. -/
def applyHit (i : Nat) (ids : List String) (r : Row) : Row :=
  match lastHit i ids r.id with
  | some j => setOrder j r
  | none => r

theorem setOrder_id (n : Int) (r : Row) : (setOrder n r).id = r.id := rfl

theorem setOrder_setOrder (m n : Int) (r : Row) :
    setOrder n (setOrder m r) = setOrder n r := rfl

theorem applyHit_step (i : Nat) (b : String) (rest : List String) (r : Row) :
    applyHit (i + 1) rest (if r.id = b then setOrder i r else r) =
      applyHit i (b :: rest) r := by
  by_cases hb : r.id = b
  · rw [if_pos hb]
    cases h : lastHit (i + 1) rest b with
    | none => simp [applyHit, lastHit, setOrder_id, hb, h]
    | some j => simp [applyHit, lastHit, setOrder_id, hb, h, setOrder_setOrder]
  · rw [if_neg hb]
    cases h : lastHit (i + 1) rest r.id with
    | none => simp [applyHit, lastHit, h, hb]
    | some j => simp [applyHit, lastHit, h]

theorem reorderSweep_eq_map :
    ∀ (ids : List String) (i : Nat) (st : List Row),
      reorderSweep i ids st = st.map (applyHit i ids)
  | [], i, st => by
      have h0 : applyHit i [] = id := funext fun r => by simp [applyHit, lastHit]
      simp [reorderSweep, h0]
  | b :: rest, i, st => by
      simp only [reorderSweep]
      rw [reorderSweep_eq_map rest (i + 1)]
      rw [List.map_map]
      apply List.map_congr_left
      intro r _
      exact applyHit_step i b rest r

theorem reorderBookmarks_eq_map (ids : List String) (st : List Row) :
    reorderBookmarks ids st = st.map (applyHit 0 ids) :=
  reorderSweep_eq_map ids 0 st

theorem applyHit_id (i : Nat) (ids : List String) (r : Row) :
    (applyHit i ids r).id = r.id := by
  unfold applyHit
  cases lastHit i ids r.id <;> rfl

theorem applyHit_applyHit (i : Nat) (ids : List String) (r : Row) :
    applyHit i ids (applyHit i ids r) = applyHit i ids r := by
  unfold applyHit
  cases h : lastHit i ids r.id
  · simp [applyHit, h]
  · simp [applyHit, setOrder_id, h, setOrder_setOrder]

theorem lastHit_none {x : String} :
    ∀ (ids : List String) (i : Nat), x ∉ ids → lastHit i ids x = none
  | [], _, _ => rfl
  | b :: rest, i, h => by
    have hx : x ≠ b := fun e => h (e ▸ List.mem_cons_self b rest)
    have hrest : x ∉ rest := fun e => h (List.mem_cons_of_mem b e)
    simp [lastHit, lastHit_none rest (i + 1) hrest, hx]

theorem applyHit_not_mem {x : String} (i : Nat) {ids : List String}
    (h : x ∉ ids) (r : Row) (hr : r.id = x) : applyHit i ids r = r := by
  unfold applyHit
  rw [hr, lastHit_none ids i h]

theorem lastHit_pos {x : String} :
    ∀ (pre : List String) (rest : List String) (i : Nat),
      x ∉ pre → x ∉ rest → lastHit i (pre ++ x :: rest) x = some (i + pre.length)
  | [], rest, i, _, hrest => by
      simp [lastHit, lastHit_none rest (i + 1) hrest]
  | a :: pre, rest, i, hpre, hrest => by
      have hxa : x ≠ a := fun e => hpre (e ▸ List.mem_cons_self a pre)
      have hpre' : x ∉ pre := fun e => hpre (List.mem_cons_of_mem a e)
      have ih := lastHit_pos pre rest (i + 1) hpre' hrest
      simp only [List.cons_append, lastHit, List.append_eq, ih]
      simp only [List.length_cons]
      congr 1
      omega

/-- Rows whose order column has been overwritten with consecutive indices
starting at n: the table contents produced by a sweep that hits every row
exactly once, in this order. -/
def stampFrom : Nat → List Row → List Row
  | _, [] => []
  | n, r :: rs => setOrder n r :: stampFrom (n + 1) rs

theorem stampFrom_order_ge :
    ∀ (n : Nat) (rs : List Row) (r : Row), r ∈ stampFrom n rs → (n : Int) ≤ r.rowOrder
  | n, [], r, h => by simp [stampFrom] at h
  | n, s :: rs, r, h => by
      rcases List.mem_cons.mp h with h1 | h2
      · subst h1; simp [setOrder]
      · have := stampFrom_order_ge (n + 1) rs r h2
        omega

theorem stampFrom_pairwise (n : Nat) (rs : List Row) :
    (stampFrom n rs).Pairwise (fun a b => a.rowOrder < b.rowOrder) := by
  induction rs generalizing n with
  | nil => simp [stampFrom]
  | cons s rs ih =>
      simp only [stampFrom, List.pairwise_cons]
      refine ⟨fun b hb => ?_, ih (n + 1)⟩
      have := stampFrom_order_ge (n + 1) rs b hb
      simp only [setOrder]
      omega

theorem stampFrom_map_record :
    ∀ (n : Nat) (rs : List Row), (stampFrom n rs).map rowToRecord = rs.map rowToRecord
  | _, [] => rfl
  | n, r :: rs => by
      simp only [stampFrom, List.map_cons, stampFrom_map_record (n + 1) rs]
      rfl

/-- Two lists that are permutations of each other and both strictly sorted by
the (order, created_at) key are equal. -/
theorem eq_of_perm_of_pairwise_rowLT :
    ∀ (l₁ l₂ : List Row), List.Perm l₁ l₂ →
      l₁.Pairwise rowLT → l₂.Pairwise rowLT → l₁ = l₂
  | [], l₂, hp, _, _ => (hp.nil_eq).symm ▸ rfl
  | a :: t₁, [], hp, _, _ => absurd hp.symm.nil_eq (by simp)
  | a :: t₁, b :: t₂, hp, h₁, h₂ => by
      have hab : a = b := by
        by_contra hne
        have ha2 : a ∈ b :: t₂ := hp.mem_iff.mp (List.mem_cons_self a t₁)
        have ha2' : a ∈ t₂ := (List.mem_cons.mp ha2).resolve_left hne
        have hba : rowLT b a := (List.pairwise_cons.mp h₂).1 a ha2'
        have hb1 : b ∈ a :: t₁ := hp.mem_iff.mpr (List.mem_cons_self b t₂)
        have hb1' : b ∈ t₁ := (List.mem_cons.mp hb1).resolve_left (fun e => hne e.symm)
        have hab' : rowLT a b := (List.pairwise_cons.mp h₁).1 b hb1'
        exact rowLT_asymm hab' hba
      subst hab
      have hp' : List.Perm t₁ t₂ := hp.cons_inv
      have := eq_of_perm_of_pairwise_rowLT t₁ t₂ hp'
        (List.pairwise_cons.mp h₁).2 (List.pairwise_cons.mp h₂).2
      rw [this]

/-- Sorted lists whose order values are pairwise distinct are strictly
sorted. -/
theorem pairwise_rowLT_of_sorted {l : List Row} (hs : List.Sorted rowLE l)
    (hd : l.Pairwise (fun a b => a.rowOrder ≠ b.rowOrder)) : l.Pairwise rowLT := by
  have := List.Pairwise.and hs hd
  exact this.imp (fun {a b} h => by
    rcases h with ⟨hle, hne⟩
    rcases hle with h1 | h2
    · exact Or.inl h1
    · exact absurd h2.1 hne)

theorem stampFrom_orders_nodup (n : Nat) (rs : List Row) :
    (stampFrom n rs).Pairwise (fun a b => a.rowOrder ≠ b.rowOrder) :=
  (stampFrom_pairwise n rs).imp (fun {a b} h => by omega)

/-- Central characterization for full-sequence reorders: mapping the sweep
effect over rows whose ids form the given sequence (with fresh-id context
pre on the left) stamps consecutive order values. -/
theorem map_applyHit_eq_stampFrom :
    ∀ (rs pre : List Row), (((pre ++ rs).map Row.id).Nodup) →
      rs.map (applyHit 0 ((pre ++ rs).map Row.id)) = stampFrom pre.length rs
  | [], pre, _ => by simp [stampFrom]
  | r :: rs, pre, h => by
      have hid : (pre ++ r :: rs).map Row.id
          = pre.map Row.id ++ r.id :: rs.map Row.id := by
        simp
      rw [hid] at h
      have h1 := List.nodup_append.mp h
      have hnotpre : r.id ∉ pre.map Row.id := by
        intro hmem
        exact h1.2.2 hmem (List.mem_cons_self _ _)
      have hnotrest : r.id ∉ rs.map Row.id := (List.nodup_cons.mp h1.2.1).1
      have hhead : applyHit 0 ((pre ++ r :: rs).map Row.id) r
          = setOrder pre.length r := by
        unfold applyHit
        rw [hid, lastHit_pos (pre.map Row.id) (rs.map Row.id) 0 hnotpre hnotrest]
        simp
      have htail : rs.map (applyHit 0 ((pre ++ r :: rs).map Row.id))
          = stampFrom (pre.length + 1) rs := by
        have hassoc : pre ++ r :: rs = (pre ++ [r]) ++ rs := by simp
        have h' : (((pre ++ [r]) ++ rs).map Row.id).Nodup := by
          rw [← hassoc, hid]; exact h
        have hrec := map_applyHit_eq_stampFrom rs (pre ++ [r]) h'
        rw [hassoc, hrec]
        simp
      simp only [List.map_cons, stampFrom, hhead, htail]

/-- Observable effect of a reorder call that lists every stored id in its
current display order: the display order is unchanged. -/
theorem reorder_full_sequence_noop (st : List Row)
    (h : (st.map Row.id).Nodup) :
    listBookmarks (reorderBookmarks ((listBookmarks st).map BookmarkRecord.id) st)
      = listBookmarks st := by
  have hids : (listBookmarks st).map BookmarkRecord.id
      = (sortRows st).map Row.id := by
    simp only [listBookmarks, List.map_map]
    apply List.map_congr_left
    intro a _
    rfl
  set S := sortRows st with hS
  have hperm : List.Perm S st := sortRows_perm st
  have hSid : (S.map Row.id).Nodup := by
    have : List.Perm (S.map Row.id) (st.map Row.id) := hperm.map Row.id
    exact this.nodup_iff.mpr h
  set ids := S.map Row.id with hidsdef
  have hstamp : S.map (applyHit 0 ids) = stampFrom 0 S := by
    have := map_applyHit_eq_stampFrom S [] (by simpa using hSid)
    simpa using this
  have hnew : reorderBookmarks ids st = st.map (applyHit 0 ids) :=
    reorderBookmarks_eq_map ids st
  have hpermNew : List.Perm (st.map (applyHit 0 ids)) (stampFrom 0 S) := by
    rw [← hstamp]
    exact (hperm.symm).map (applyHit 0 ids)
  -- sorted result of the re-read equals the stamped sequence
  have hsortperm : List.Perm (sortRows (reorderBookmarks ids st)) (stampFrom 0 S) := by
    rw [hnew]
    exact (sortRows_perm _).trans hpermNew
  have hsorted : List.Sorted rowLE (sortRows (reorderBookmarks ids st)) :=
    sortRows_sorted _
  have hsymm : Symmetric (fun a b : Row => a.rowOrder ≠ b.rowOrder) :=
    fun _ _ hab => fun e => hab e.symm
  have hdistinct : (sortRows (reorderBookmarks ids st)).Pairwise
      (fun a b => a.rowOrder ≠ b.rowOrder) :=
    (hsortperm.pairwise_iff (fun h1 h2 => hsymm h1 h2)).mpr (stampFrom_orders_nodup 0 S)
  have heq : sortRows (reorderBookmarks ids st) = stampFrom 0 S :=
    eq_of_perm_of_pairwise_rowLT _ _ hsortperm
      (pairwise_rowLT_of_sorted hsorted hdistinct)
      ((stampFrom_pairwise 0 S).imp (fun {a b} hab => Or.inl hab))
  rw [hids]
  show (sortRows (reorderBookmarks ids st)).map rowToRecord = listBookmarks st
  rw [heq, stampFrom_map_record]
  rfl

/-- State-level idempotence of the reorder sweep. -/
theorem reorderBookmarks_state_idem (ids : List String) (st : List Row) :
    reorderBookmarks ids (reorderBookmarks ids st) = reorderBookmarks ids st := by
  rw [reorderBookmarks_eq_map, reorderBookmarks_eq_map, List.map_map]
  apply List.map_congr_left
  intro r _
  exact applyHit_applyHit 0 ids r

/-- Fields of a row other than the order column. -/
def rowFrame (r : Row) :
    String × String × String × Option String × Option String × Bool × Nat :=
  (r.id, r.title, r.url, r.category, r.description, r.visible, r.createdAt)

theorem applyHit_frame (i : Nat) (ids : List String) (r : Row) :
    rowFrame (applyHit i ids r) = rowFrame r := by
  unfold applyHit
  cases lastHit i ids r.id <;> rfl

/-- Concrete three-row table for the counterexample evaluations: rows a, b, c
in display positions 0, 1, 2 (dense orders, increasing creation times). -/
def rowA : Row := ⟨"a", "A", "https://a", none, none, true, 0, 0⟩

def rowB : Row := ⟨"b", "B", "https://b", none, none, true, 1, 1⟩

def rowC : Row := ⟨"c", "C", "https://c", none, none, true, 2, 2⟩

def st3 : List Row := [rowA, rowB, rowC]

/-- Two-row table used for the unknown-id counterexample. -/
def st2 : List Row := [rowA, rowB]

/-- C1: reorderBookmarks(["c"]) on a table whose display order is a, b, c
leaves the unmentioned bookmarks a and b at their old order values instead of
appending them after c.  The re-read list is [a, c, b], not the [c, a, b]
required by the claim, and the stored order column holds 0, 0, 1 - neither
gapless nor repeat-free over [0..3). -/
theorem c1_reorder_unmentioned_interleave :
    (listBookmarks (reorderBookmarks ["c"] st3)).map BookmarkRecord.id
        = ["a", "c", "b"]
      ∧ (sortRows (reorderBookmarks ["c"] st3)).map Row.rowOrder = [0, 0, 1]
      ∧ (["a", "c", "b"] : List String) ≠ ["c", "a", "b"] := by
  refine ⟨by decide, by decide, by decide⟩

/-- C5: reorderBookmarks is idempotent.  First, a reorder with the full
current id sequence (ids in display order) leaves the observable list
unchanged; second, repeating a reorder with the same id sequence yields the
same observable list as the first call, for every sequence and state. -/
theorem c5_reorderBookmarks_idempotent :
    (∀ st : List Row, (st.map Row.id).Nodup →
        listBookmarks
            (reorderBookmarks ((listBookmarks st).map BookmarkRecord.id) st)
          = listBookmarks st)
      ∧ (∀ (ids : List String) (st : List Row),
          listBookmarks (reorderBookmarks ids (reorderBookmarks ids st))
            = listBookmarks (reorderBookmarks ids st)) :=
  ⟨fun st h => reorder_full_sequence_noop st h,
   fun ids st => by rw [reorderBookmarks_state_idem]⟩

theorem c5_reorderBookmarks_idempotent_witness :
    (st3.map Row.id).Nodup
      ∧ listBookmarks
            (reorderBookmarks ((listBookmarks st3).map BookmarkRecord.id) st3)
          = listBookmarks st3 :=
  ⟨by decide, c5_reorderBookmarks_idempotent.1 st3 (by decide)⟩

/-- C10 counterexample: ids that match no stored bookmark are not simply
ignored.  On the two-row table [a (order 0), b (order 1)], the call
reorderBookmarks(["x", "y", "a"]) assigns a the order value 2 (its index in
the sequence, unknown ids included), so the observable list becomes [b, a];
with the unknown ids removed the same call yields [a, b]. -/
theorem c10_unknown_ids_shift :
    (listBookmarks (reorderBookmarks ["x", "y", "a"] st2)).map BookmarkRecord.id
        = ["b", "a"]
      ∧ (listBookmarks (reorderBookmarks ["a"] st2)).map BookmarkRecord.id
        = ["a", "b"]
      ∧ listBookmarks (reorderBookmarks ["x", "y", "a"] st2)
        ≠ listBookmarks (reorderBookmarks ["a"] st2) := by
  refine ⟨by decide, by decide, by decide⟩

/-- C10 amended: reorderBookmarks touches only the order column - every other
field of every row, and hence the set of stored ids, is unchanged in place -
and a row whose id does not occur in the sequence is not modified at all.
Unknown ids update no row, but they still occupy an index of the sequence, so
later ids receive larger order values (see the counterexample). -/
theorem c10_reorder_frame :
    (∀ (ids : List String) (st : List Row),
        (reorderBookmarks ids st).map rowFrame = st.map rowFrame)
      ∧ (∀ (ids : List String) (st : List Row) (r : Row),
          r ∈ st → r.id ∉ ids → r ∈ reorderBookmarks ids st) := by
  constructor
  · intro ids st
    rw [reorderBookmarks_eq_map, List.map_map]
    apply List.map_congr_left
    intro r _
    exact applyHit_frame 0 ids r
  · intro ids st r hr hnot
    rw [reorderBookmarks_eq_map]
    have : applyHit 0 ids r = r := applyHit_not_mem 0 hnot r rfl
    exact this ▸ List.mem_map_of_mem (applyHit 0 ids) hr

theorem c10_reorder_frame_witness :
    rowA ∈ st2 ∧ rowA.id ∉ (["x"] : List String)
      ∧ rowA ∈ reorderBookmarks ["x"] st2 :=
  ⟨by decide, by decide,
    c10_reorder_frame.2 ["x"] st2 rowA (by decide) (by decide)⟩

/-- bookmarkCategoryKey from src/vercel/_lib/db.ts: the normalized category
of a record, with the empty string as the default-category key. -/
def bookmarkCategoryKey (b : BookmarkRecord) : String :=
  (normalizeCategoryValue b.category).getD ""

/-- normalizeCategoryKeyInput from src/vercel/_lib/db.ts restricted to string
inputs (non-strings map to the empty string in the source): a trim. -/
def normalizeCategoryKeyInput (v : String) : String := jsTrim v

/-- First-seen sequence of category keys (the originalOrder array built by
the forEach loop of reorderBookmarkCategories). -/
def firstSeenKeys (bs : List BookmarkRecord) : List String :=
  bs.foldl
    (fun acc b =>
      if bookmarkCategoryKey b ∈ acc then acc else acc ++ [bookmarkCategoryKey b])
    []

/-- Requested category sequence (the requestedOrder array): normalized input
entries that name an existing category, de-duplicated, in given order. -/
def requestedKeys (ks : List String) (bs : List BookmarkRecord) : List String :=
  ks.foldl
    (fun acc v =>
      let k := normalizeCategoryKeyInput v
      if k ∈ firstSeenKeys bs ∧ k ∉ acc then acc ++ [k] else acc)
    []

/-- Final category sequence: requested categories first, then the remaining
existing categories in first-seen order (the second forEach loop). -/
def targetKeys (ks : List String) (bs : List BookmarkRecord) : List String :=
  requestedKeys ks bs
    ++ (firstSeenKeys bs).filter (fun k => decide (k ∉ requestedKeys ks bs))

/-- Concatenation of the per-category groups in the order of the given key
sequence.  In the source the group of a key is the array the grouping loop
pushed that key's bookmarks into, i.e. the in-order sublist of bookmarks
with that key, which is the filter below. -/
def selGroups (bs : List BookmarkRecord) : List String → List BookmarkRecord
  | [] => []
  | k :: ks => bs.filter (fun b => bookmarkCategoryKey b == k) ++ selGroups bs ks

/-- reorderBookmarkCategories from src/vercel/_lib/db.ts at the record level:
the reordered array the function builds, writes back as order values 0..N-1
and returns. -/
def reorderBookmarkCategories (ks : List String) (bs : List BookmarkRecord) :
    List BookmarkRecord :=
  selGroups bs (targetKeys ks bs)

/-- Site settings singleton from src/vercel/_lib/db.ts and src/api/_lib/db.ts. -/
structure SettingsData where
  theme : String
  siteTitle : String
  siteIcon : String
deriving DecidableEq, Repr

/-- Partial settings update payload (Partial of SettingsData). -/
structure PartialSettings where
  theme : Option String
  siteTitle : Option String
  siteIcon : Option String
deriving DecidableEq, Repr

/-- updateSettings from src/vercel/_lib/db.ts (identical in
src/api/_lib/db.ts): spreads the partial over the current value and then
fixes every field with partial.f ?? current.f, which covers the whole field
set. -/
def updateSettings (partial_ : PartialSettings) (current : SettingsData) :
    SettingsData :=
  { theme := partial_.theme.getD current.theme
    siteTitle := partial_.siteTitle.getD current.siteTitle
    siteIcon := partial_.siteIcon.getD current.siteIcon }

/-- Runtime JSON value for fields whose TypeScript annotation is not enforced
at the boundary (the visible field of a parsed request body). -/
inductive JValue where
  | jnull : JValue
  | jbool : Bool → JValue
  | jstr : String → JValue
  | jnum : Int → JValue
deriving DecidableEq, Repr

/-- Visible field computed by the POST /api/bookmarks handler in
src/backend/index.js: typeof visible === "boolean" ? visible : true. -/
def adminVisible : Option JValue → Bool
  | some (JValue.jbool b) => b
  | _ => true

/-- Visible field passed to createBookmark by the import handler in
src/vercel/backup/import.ts: visible !== undefined ? visible : true. -/
def importVisible : Option JValue → JValue
  | none => JValue.jbool true
  | some x => x

/-- sanitizeUrl from src/backend/index.js: String(value ?? "").trim() - a
trim with no scheme handling. -/
def sanitizeUrlBackend (v : Option String) : String := jsTrim (v.getD "")

/-- Prefix test over character lists. -/
def charsStartWith : List Char → List Char → Bool
  | _, [] => true
  | [], _ :: _ => false
  | c :: cs, p :: ps => c == p && charsStartWith cs ps

/-- Test of the import sanitizer's anchored, case-insensitive scheme regex:
the string starts with http:// or https:// up to letter case. -/
def hasHttpScheme (s : String) : Bool :=
  let l := s.data.map Char.toLower
  charsStartWith l ("http://".data) || charsStartWith l ("https://".data)

/-- sanitizeUrl from src/vercel/backup/import.ts: trim, empty stays empty, a
url already carrying an http(s) scheme is kept, anything else gets an
https:// prefix. -/
def sanitizeUrlImport (url : String) : String :=
  let trimmed := jsTrim url
  if trimmed = "" then ""
  else if hasHttpScheme trimmed then trimmed
  else "https://" ++ trimmed

/-- sanitizeText from src/backend/index.js: null/undefined stay undefined,
otherwise trim, and an all-whitespace value becomes undefined. -/
def sanitizeText : Option String → Option String
  | none => none
  | some s =>
    let t := jsTrim s
    if t = "" then none else some t

/-- JS falsiness of an optional string request field: absent, null or the
empty string (the check if (!title || !url) runs before any trimming). -/
def isFalsyStr : Option String → Bool
  | none => true
  | some s => s = ""

/-- Stored record shape of the express backend's JSON file
(src/backend/index.js): sanitized fields plus ISO timestamp strings. -/
structure BackendRecord where
  id : String
  title : Option String
  url : String
  category : Option String
  description : Option String
  visible : Bool
  createdAt : String
  updatedAt : String
deriving DecidableEq, Repr

/-- POST /api/bookmarks handler of src/backend/index.js: reject with 400 when
title or url is falsy (before trimming), otherwise build the sanitized
record, push it at the end of the stored array and write the file.  The
fresh uuid and the timestamp are passed as parameters. -/
def backendCreateBookmark (title url category description : Option String)
    (visible : Option JValue) (newId now : String)
    (st : List BackendRecord) :
    Except String (BackendRecord × List BackendRecord) :=
  if isFalsyStr title || isFalsyStr url then
    Except.error "empty title or url"
  else
    let rec_ : BackendRecord :=
      { id := newId, title := sanitizeText title
        url := sanitizeUrlBackend url
        category := sanitizeText category
        description := sanitizeText description
        visible := adminVisible visible
        createdAt := now, updatedAt := now }
    Except.ok (rec_, st ++ [rec_])

/-- Stored collection after the POST handler: unchanged when the handler
rejects the request (the rejection happens before any read or write). -/
def backendCreateState (title url category description : Option String)
    (visible : Option JValue) (newId now : String)
    (st : List BackendRecord) : List BackendRecord :=
  match backendCreateBookmark title url category description visible newId now st with
  | Except.ok (_, st2) => st2
  | Except.error _ => st

/-- Success test for a handler outcome. -/
def isOkE {ε α : Type} : Except ε α → Bool
  | Except.ok _ => true
  | Except.error _ => false

/-- C4 counterexample: the create path of src/backend/index.js stores the url
"example.com" unchanged - its sanitizeUrl only trims and never prefixes a
scheme, so the claimed stored value "https://example.com" is not produced. -/
theorem c4_backend_create_does_not_prefix :
    backendCreateBookmark (some "T") (some "example.com") none none none
        "id1" "t0" []
      = Except.ok
          ({ id := "id1", title := some "T", url := "example.com"
             category := none, description := none, visible := true
             createdAt := "t0", updatedAt := "t0" },
           [{ id := "id1", title := some "T", url := "example.com"
              category := none, description := none, visible := true
              createdAt := "t0", updatedAt := "t0" }])
      ∧ ("example.com" : String) ≠ "https://example.com" := by
  refine ⟨rfl, by decide⟩

/-- C4 amended: the https:// prefixing happens in the import pipeline's
sanitizeUrl (src/vercel/backup/import.ts) - a trimmed url without an http(s)
scheme is prefixed and one with a scheme is kept - while the express
backend's sanitizeUrl (src/backend/index.js) only trims. -/
theorem c4_url_normalization :
    (∀ s : String, jsTrim s ≠ "" → hasHttpScheme (jsTrim s) = false →
        sanitizeUrlImport s = "https://" ++ jsTrim s)
      ∧ (∀ s : String, hasHttpScheme (jsTrim s) = true →
          sanitizeUrlImport s = jsTrim s)
      ∧ sanitizeUrlBackend (some "example.com") = "example.com" := by
  refine ⟨?_, ?_, by decide⟩
  · intro s h1 h2
    simp [sanitizeUrlImport, h1, h2]
  · intro s h
    have hne : jsTrim s ≠ "" := by
      intro e
      rw [e] at h
      exact absurd h (by decide)
    simp [sanitizeUrlImport, hne, h]

theorem c4_url_normalization_witness :
    (jsTrim "example.com" ≠ "" ∧ hasHttpScheme (jsTrim "example.com") = false)
      ∧ sanitizeUrlImport "example.com" = "https://" ++ jsTrim "example.com" :=
  ⟨⟨by decide, by decide⟩,
    c4_url_normalization.1 "example.com" (by decide) (by decide)⟩

/-- C6 counterexample: a title of a single space is empty after trimming, yet
the POST handler of src/backend/index.js accepts the request (its check
if (!title) runs on the raw value, and " " is truthy); the bookmark is stored
with title undefined instead of the claimed validation failure. -/
theorem c6_whitespace_title_passes :
    jsTrim " " = ""
      ∧ isOkE (backendCreateBookmark (some " ") (some "example.com") none none
          none "id1" "t0" []) = true
      ∧ backendCreateState (some " ") (some "example.com") none none
          none "id1" "t0" [] ≠ [] := by
  refine ⟨by decide, by decide, by decide⟩

/-- C6 amended: create fails with a validation error, leaving the stored
collection untouched, exactly when title or url is absent or the empty string
(the falsiness check precedes trimming); a whitespace-only title or url
passes the check and the bookmark is stored. -/
theorem c6_create_validation :
    ∀ (title url category description : Option String)
      (visible : Option JValue) (newId now : String) (st : List BackendRecord),
      ((isFalsyStr title || isFalsyStr url) = true →
          backendCreateBookmark title url category description visible newId now st
              = Except.error "empty title or url"
            ∧ backendCreateState title url category description visible newId now st
              = st)
        ∧ ((isFalsyStr title || isFalsyStr url) = false →
            isOkE (backendCreateBookmark title url category description visible
              newId now st) = true) := by
  intro title url category description visible newId now st
  constructor
  · intro h
    constructor
    · simp [backendCreateBookmark, h]
    · simp [backendCreateState, backendCreateBookmark, h]
  · intro h
    simp [backendCreateBookmark, h, isOkE]

theorem c6_create_validation_witness :
    (isFalsyStr (some "") || isFalsyStr (some "x")) = true
      ∧ backendCreateBookmark (some "") (some "x") none none none "i" "t" []
        = Except.error "empty title or url"
      ∧ backendCreateState (some "") (some "x") none none none "i" "t" [] = [] :=
  ⟨by decide,
    (c6_create_validation (some "") (some "x") none none none "i" "t" []).1
      (by decide) |>.1,
    (c6_create_validation (some "") (some "x") none none none "i" "t" []).1
      (by decide) |>.2⟩

/-- C7: updateSettings merges the partial update into the current settings,
preserving every field the partial leaves unspecified; in particular two
consecutive theme-only updates leave siteTitle and siteIcon at their prior
values. -/
theorem c7_update_settings_merge :
    (∀ (p : PartialSettings) (s : SettingsData),
        (p.theme = none → (updateSettings p s).theme = s.theme)
          ∧ (p.siteTitle = none → (updateSettings p s).siteTitle = s.siteTitle)
          ∧ (p.siteIcon = none → (updateSettings p s).siteIcon = s.siteIcon))
      ∧ (∀ s : SettingsData,
          (updateSettings ⟨some "dark", none, none⟩
              (updateSettings ⟨some "dark", none, none⟩ s)).siteTitle
            = s.siteTitle
          ∧ (updateSettings ⟨some "dark", none, none⟩
              (updateSettings ⟨some "dark", none, none⟩ s)).siteIcon
            = s.siteIcon
          ∧ (updateSettings ⟨some "dark", none, none⟩
              (updateSettings ⟨some "dark", none, none⟩ s)).theme
            = "dark") := by
  constructor
  · intro p s
    refine ⟨fun h => ?_, fun h => ?_, fun h => ?_⟩ <;>
      simp [updateSettings, h]
  · intro s
    refine ⟨rfl, rfl, rfl⟩

theorem c7_update_settings_merge_witness :
    ((⟨none, none, none⟩ : PartialSettings).theme = none)
      ∧ (updateSettings ⟨none, none, none⟩ ⟨"light", "T", "I"⟩).theme = "light" :=
  ⟨rfl, (c7_update_settings_merge.1 ⟨none, none, none⟩ ⟨"light", "T", "I"⟩).1 rfl⟩

/-- C9 counterexample: the import handler's visible expression
(visible !== undefined ? visible : true) passes a present non-boolean value
through unchanged - a JSON null arrives as null, not as the claimed true. -/
theorem c9_import_nonboolean_visible :
    importVisible (some JValue.jnull) = JValue.jnull
      ∧ importVisible (some JValue.jnull) ≠ JValue.jbool true
      ∧ importVisible (some (JValue.jstr "no")) ≠ JValue.jbool true := by
  refine ⟨by decide, by decide, by decide⟩

/-- C9 amended: the admin create endpoint defaults visible to true whenever
the field is absent or not a boolean, and keeps a boolean value; the import
pipeline defaults to true only when the field is absent (undefined) and
passes any present value through unchanged, non-booleans included. -/
theorem c9_visible_defaults :
    (∀ v : Option JValue,
        (v = none ∨ ∀ b : Bool, v ≠ some (JValue.jbool b)) → adminVisible v = true)
      ∧ (∀ b : Bool, adminVisible (some (JValue.jbool b)) = b)
      ∧ importVisible none = JValue.jbool true
      ∧ (∀ x : JValue, importVisible (some x) = x) := by
  refine ⟨?_, fun b => rfl, rfl, fun x => rfl⟩
  intro v h
  match v with
  | none => rfl
  | some JValue.jnull => rfl
  | some (JValue.jstr _) => rfl
  | some (JValue.jnum _) => rfl
  | some (JValue.jbool b) =>
      rcases h with h | h
      · exact absurd h (by simp)
      · exact absurd rfl (h b)

theorem c9_visible_defaults_witness :
    ((some JValue.jnull = none) ∨ ∀ b : Bool, some JValue.jnull ≠ some (JValue.jbool b))
      ∧ adminVisible (some JValue.jnull) = true :=
  ⟨Or.inr (fun b h => by cases h), c9_visible_defaults.1 (some JValue.jnull)
    (Or.inr (fun b h => by cases h))⟩

theorem mem_firstSeen_fold (bs : List BookmarkRecord) :
    ∀ (acc : List String) (x : String),
      x ∈ bs.foldl
          (fun acc b =>
            if bookmarkCategoryKey b ∈ acc then acc
            else acc ++ [bookmarkCategoryKey b]) acc
        ↔ x ∈ acc ∨ x ∈ bs.map bookmarkCategoryKey := by
  induction bs with
  | nil => intro acc x; simp
  | cons b bs ih =>
      intro acc x
      simp only [List.foldl_cons, List.map_cons, List.mem_cons]
      by_cases hb : bookmarkCategoryKey b ∈ acc
      · rw [if_pos hb, ih]
        constructor
        · rintro (h | h)
          · exact Or.inl h
          · exact Or.inr (Or.inr h)
        · rintro (h | h | h)
          · exact Or.inl h
          · exact Or.inl (h ▸ hb)
          · exact Or.inr h
      · rw [if_neg hb, ih]
        simp only [List.mem_append, List.mem_singleton]
        tauto

theorem mem_firstSeenKeys (bs : List BookmarkRecord) (x : String) :
    x ∈ firstSeenKeys bs ↔ x ∈ bs.map bookmarkCategoryKey := by
  unfold firstSeenKeys
  rw [mem_firstSeen_fold bs [] x]
  simp

theorem nodup_firstSeen_fold (bs : List BookmarkRecord) :
    ∀ acc : List String, acc.Nodup →
      (bs.foldl
          (fun acc b =>
            if bookmarkCategoryKey b ∈ acc then acc
            else acc ++ [bookmarkCategoryKey b]) acc).Nodup := by
  induction bs with
  | nil => intro acc h; simpa using h
  | cons b bs ih =>
      intro acc h
      simp only [List.foldl_cons]
      by_cases hb : bookmarkCategoryKey b ∈ acc
      · rw [if_pos hb]; exact ih acc h
      · rw [if_neg hb]
        apply ih
        simp [List.nodup_append, h, hb]

theorem nodup_firstSeenKeys (bs : List BookmarkRecord) :
    (firstSeenKeys bs).Nodup :=
  nodup_firstSeen_fold bs [] (List.nodup_nil)

theorem requested_fold_spec (bs : List BookmarkRecord) :
    ∀ (ks : List String) (acc : List String), acc.Nodup →
      (ks.foldl
          (fun acc v =>
            let k := normalizeCategoryKeyInput v
            if k ∈ firstSeenKeys bs ∧ k ∉ acc then acc ++ [k] else acc) acc).Nodup
        ∧ ∀ x, x ∈ ks.foldl
              (fun acc v =>
                let k := normalizeCategoryKeyInput v
                if k ∈ firstSeenKeys bs ∧ k ∉ acc then acc ++ [k] else acc) acc →
            x ∈ acc ∨ x ∈ firstSeenKeys bs := by
  intro ks
  induction ks with
  | nil => intro acc h; exact ⟨h, fun x hx => Or.inl hx⟩
  | cons v ks ih =>
      intro acc h
      simp only [List.foldl_cons]
      by_cases hc : normalizeCategoryKeyInput v ∈ firstSeenKeys bs
          ∧ normalizeCategoryKeyInput v ∉ acc
      · rw [if_pos hc]
        have hacc : (acc ++ [normalizeCategoryKeyInput v]).Nodup := by
          simp [List.nodup_append, h, hc.2]
        refine ⟨(ih _ hacc).1, fun x hx => ?_⟩
        rcases (ih _ hacc).2 x hx with hx1 | hx1
        · rcases List.mem_append.mp hx1 with hx2 | hx2
          · exact Or.inl hx2
          · right
            rw [List.mem_singleton] at hx2
            exact hx2 ▸ hc.1
        · exact Or.inr hx1
      · rw [if_neg hc]
        exact ih acc h

theorem nodup_requestedKeys (ks : List String) (bs : List BookmarkRecord) :
    (requestedKeys ks bs).Nodup :=
  (requested_fold_spec bs ks [] List.nodup_nil).1

theorem requestedKeys_subset (ks : List String) (bs : List BookmarkRecord)
    {x : String} (h : x ∈ requestedKeys ks bs) : x ∈ firstSeenKeys bs := by
  rcases (requested_fold_spec bs ks [] List.nodup_nil).2 x h with h1 | h1
  · exact absurd h1 (List.not_mem_nil x)
  · exact h1

theorem nodup_targetKeys (ks : List String) (bs : List BookmarkRecord) :
    (targetKeys ks bs).Nodup := by
  unfold targetKeys
  rw [List.nodup_append]
  refine ⟨nodup_requestedKeys ks bs, (nodup_firstSeenKeys bs).filter _, ?_⟩
  intro x hx hx2
  have := List.of_mem_filter hx2
  rw [decide_eq_true_eq] at this
  exact this hx

theorem targetKeys_complete (ks : List String) (bs : List BookmarkRecord)
    {b : BookmarkRecord} (hb : b ∈ bs) :
    bookmarkCategoryKey b ∈ targetKeys ks bs := by
  have hfs : bookmarkCategoryKey b ∈ firstSeenKeys bs :=
    (mem_firstSeenKeys bs _).mpr (List.mem_map_of_mem _ hb)
  unfold targetKeys
  by_cases hreq : bookmarkCategoryKey b ∈ requestedKeys ks bs
  · exact List.mem_append_left _ hreq
  · refine List.mem_append_right _ (List.mem_filter.mpr ⟨hfs, ?_⟩)
    exact decide_eq_true hreq

theorem targetKeys_keys (ks : List String) (bs : List BookmarkRecord)
    {k : String} (h : k ∈ targetKeys ks bs) : k ∈ firstSeenKeys bs := by
  unfold targetKeys at h
  rcases List.mem_append.mp h with h1 | h1
  · exact requestedKeys_subset ks bs h1
  · exact List.mem_of_mem_filter h1

theorem selGroups_filter_ne {k : String} :
    ∀ (ks : List String) (bs : List BookmarkRecord), k ∉ ks →
      selGroups bs ks
        = selGroups (bs.filter (fun b => !(bookmarkCategoryKey b == k))) ks
  | [], bs, _ => rfl
  | k' :: ks, bs, h => by
      have hkk : k ≠ k' := fun e => h (e ▸ List.mem_cons_self k' ks)
      have hks : k ∉ ks := fun e => h (List.mem_cons_of_mem k' e)
      simp only [selGroups]
      rw [← selGroups_filter_ne ks bs hks]
      congr 1
      rw [List.filter_filter]
      apply List.filter_congr
      intro b _
      by_cases hb : bookmarkCategoryKey b = k'
      · have hne : ¬ k' = k := fun e => hkk e.symm
        simp [hb, hne]
      · simp [hb]

theorem selGroups_perm :
    ∀ (ks : List String) (bs : List BookmarkRecord), ks.Nodup →
      (∀ b ∈ bs, bookmarkCategoryKey b ∈ ks) → List.Perm (selGroups bs ks) bs
  | [], bs, _, hall => by
      cases bs with
      | nil => simp [selGroups]
      | cons b t => exact absurd (hall b (List.mem_cons_self b t)) (List.not_mem_nil _)
  | k :: ks, bs, hnd, hall => by
      have hknotin : k ∉ ks := (List.nodup_cons.mp hnd).1
      have hnd' : ks.Nodup := (List.nodup_cons.mp hnd).2
      simp only [selGroups]
      rw [selGroups_filter_ne ks bs hknotin]
      have hall' : ∀ b ∈ bs.filter (fun b => !(bookmarkCategoryKey b == k)),
          bookmarkCategoryKey b ∈ ks := by
        intro b hb
        have hmem := List.mem_of_mem_filter hb
        have hprop := List.of_mem_filter hb
        have hne : bookmarkCategoryKey b ≠ k := by
          intro e
          rw [e] at hprop
          simp at hprop
        rcases List.mem_cons.mp (hall b hmem) with h1 | h1
        · exact absurd h1 hne
        · exact h1
      have hperm := selGroups_perm ks
        (bs.filter (fun b => !(bookmarkCategoryKey b == k))) hnd' hall'
      exact List.Perm.trans
        (List.Perm.append_left (bs.filter (fun b => bookmarkCategoryKey b == k)) hperm)
        (List.filter_append_perm (fun b => bookmarkCategoryKey b == k) bs)

theorem selGroups_filter {k : String} :
    ∀ (ks : List String) (bs : List BookmarkRecord), ks.Nodup →
      (selGroups bs ks).filter (fun b => bookmarkCategoryKey b == k)
        = if k ∈ ks then bs.filter (fun b => bookmarkCategoryKey b == k) else []
  | [], bs, _ => by simp [selGroups]
  | k' :: ks, bs, hnd => by
      have hknotin : k' ∉ ks := (List.nodup_cons.mp hnd).1
      have hnd' : ks.Nodup := (List.nodup_cons.mp hnd).2
      simp only [selGroups, List.filter_append]
      rw [selGroups_filter ks bs hnd', List.filter_filter]
      by_cases he : k = k'
      · subst he
        have h1 : bs.filter (fun b =>
              (bookmarkCategoryKey b == k) && (bookmarkCategoryKey b == k))
            = bs.filter (fun b => bookmarkCategoryKey b == k) := by
          apply List.filter_congr
          intro b _
          by_cases hb : bookmarkCategoryKey b = k <;> simp [hb]
        rw [h1, if_neg hknotin, if_pos (List.mem_cons_self k ks)]
        simp
      · have h1 : bs.filter (fun b =>
              (bookmarkCategoryKey b == k) && (bookmarkCategoryKey b == k'))
            = [] := by
          have : bs.filter (fun b =>
                (bookmarkCategoryKey b == k) && (bookmarkCategoryKey b == k'))
              = bs.filter (fun _ => false) := by
            apply List.filter_congr
            intro b _
            by_cases hb : bookmarkCategoryKey b = k'
            · simp [hb]
              exact fun e => he e.symm
            · simp [hb]
          rw [this, List.filter_false]
        rw [h1]
        have hnotc : (k ∈ k' :: ks) ↔ (k ∈ ks) := by
          simp [List.mem_cons, he]
        by_cases hk : k ∈ ks
        · rw [if_pos hk, if_pos (hnotc.mpr hk)]
          simp
        · rw [if_neg hk, if_neg (fun hc => hk (hnotc.mp hc))]
          simp

/-- C2: reorderBookmarkCategories never drops or duplicates a bookmark (the
result is a permutation of the input), and within every normalized category
the sequence of bookmarks is exactly the pre-reorder sequence, for every
input key sequence and every bookmark collection - so if A preceded B in a
category before the call, A still precedes B after it. -/
theorem c2_reorder_categories (ks : List String) (bs : List BookmarkRecord) :
    List.Perm (reorderBookmarkCategories ks bs) bs
      ∧ ∀ k : String,
          (reorderBookmarkCategories ks bs).filter
              (fun b => bookmarkCategoryKey b == k)
            = bs.filter (fun b => bookmarkCategoryKey b == k) := by
  constructor
  · exact selGroups_perm (targetKeys ks bs) bs (nodup_targetKeys ks bs)
      (fun b hb => targetKeys_complete ks bs hb)
  · intro k
    unfold reorderBookmarkCategories
    rw [selGroups_filter (targetKeys ks bs) bs (nodup_targetKeys ks bs)]
    by_cases hk : k ∈ targetKeys ks bs
    · rw [if_pos hk]
    · rw [if_neg hk]
      symm
      rw [List.filter_eq_nil_iff]
      intro b hb hbk
      rw [beq_iff_eq] at hbk
      exact hk (hbk ▸ targetKeys_complete ks bs hb)

/-- Current maximum of the order column, with -1 on an empty table (the
SELECT COALESCE(MAX("order"), -1) of createBookmark). -/
def maxOrder (st : List Row) : Int :=
  st.foldl (fun m r => max m r.rowOrder) (-1)

/-- Row inserted by createBookmark in src/vercel/_lib/db.ts: sanitized
category, order column set to max + 1. -/
def vercelCreateRow (data : BookmarkInput) (newId : String) (now : Nat)
    (st : List Row) : Row :=
  { id := newId, title := data.title, url := data.url
    category := normalizeCategoryValue data.category
    description := data.description, visible := data.visible
    rowOrder := maxOrder st + 1, createdAt := now }

/-- Table contents after the INSERT of createBookmark. -/
def vercelCreateState (data : BookmarkInput) (newId : String) (now : Nat)
    (st : List Row) : List Row :=
  st ++ [vercelCreateRow data newId now st]

/-- Record returned by createBookmark in src/vercel/_lib/db.ts (built before
the INSERT, category normalized). -/
def vercelCreateRecord (data : BookmarkInput) (newId : String) : BookmarkRecord :=
  { id := newId, title := data.title, url := data.url
    category := normalizeCategoryValue data.category
    description := data.description, visible := data.visible }

theorem le_foldl_max :
    ∀ (l : List Row) (a : Int), a ≤ l.foldl (fun m r => max m r.rowOrder) a
  | [], a => le_refl a
  | r :: l, a => le_trans (le_max_left a r.rowOrder) (le_foldl_max l _)

theorem mem_le_foldl_max :
    ∀ (l : List Row) (a : Int) (r : Row), r ∈ l →
      r.rowOrder ≤ l.foldl (fun m r => max m r.rowOrder) a
  | [], _, _, h => absurd h (List.not_mem_nil _)
  | s :: l, a, r, h => by
      rcases List.mem_cons.mp h with h1 | h1
      · subst h1
        exact le_trans (le_max_right a r.rowOrder) (le_foldl_max l _)
      · exact mem_le_foldl_max l _ r h1

theorem le_maxOrder {st : List Row} {r : Row} (h : r ∈ st) :
    r.rowOrder ≤ maxOrder st :=
  mem_le_foldl_max st (-1) r h

theorem orderedInsert_append_max :
    ∀ (l : List Row) (r x : Row), rowLE r x →
      List.orderedInsert rowLE r (l ++ [x])
        = List.orderedInsert rowLE r l ++ [x]
  | [], r, x, h => by
      simp [List.orderedInsert, if_pos h]
  | b :: l, r, x, h => by
      simp only [List.cons_append, List.orderedInsert]
      by_cases hrb : rowLE r b
      · rw [if_pos hrb, if_pos hrb]
        simp
      · rw [if_neg hrb, if_neg hrb]
        simp only [List.append_eq]
        rw [orderedInsert_append_max l r x h]
        simp

theorem sortRows_append_max :
    ∀ (st : List Row) (x : Row), (∀ r ∈ st, rowLE r x) →
      sortRows (st ++ [x]) = sortRows st ++ [x]
  | [], x, _ => by
      simp [sortRows, List.insertionSort, List.orderedInsert]
  | b :: st, x, h => by
      have hb : rowLE b x := h b (List.mem_cons_self b st)
      have hst : ∀ r ∈ st, rowLE r x := fun r hr => h r (List.mem_cons_of_mem b hr)
      show List.orderedInsert rowLE b (sortRows (st ++ [x]))
        = List.orderedInsert rowLE b (sortRows st) ++ [x]
      rw [sortRows_append_max st x hst, orderedInsert_append_max _ b x hb]

/-- C3 amended, relational part: createBookmark appends the new bookmark at
the very end of the observable list - its order value strictly exceeds every
stored order value, so the re-read list is the old list with the new record
appended. -/
theorem c3_create_appends_relational :
    ∀ (data : BookmarkInput) (newId : String) (now : Nat) (st : List Row),
      listBookmarks (vercelCreateState data newId now st)
          = listBookmarks st
            ++ [rowToRecord (vercelCreateRow data newId now st)]
        ∧ (∀ r ∈ st, r.rowOrder < (vercelCreateRow data newId now st).rowOrder) := by
  intro data newId now st
  have horder : ∀ r ∈ st, r.rowOrder < (vercelCreateRow data newId now st).rowOrder := by
    intro r hr
    have := le_maxOrder hr
    show r.rowOrder < maxOrder st + 1
    omega
  have hle : ∀ r ∈ st, rowLE r (vercelCreateRow data newId now st) :=
    fun r hr => Or.inl (horder r hr)
  refine ⟨?_, horder⟩
  unfold vercelCreateState listBookmarks
  rw [sortRows_append_max st _ hle, List.map_append]
  rfl

theorem c3_create_appends_relational_witness :
    rowA ∈ st2
      ∧ rowA.rowOrder
        < (vercelCreateRow ⟨"New", "https://new", none, none, true⟩ "n" 5 st2).rowOrder :=
  ⟨by decide,
    (c3_create_appends_relational ⟨"New", "https://new", none, none, true⟩
      "n" 5 st2).2 rowA (by decide)⟩

/-- Stored record of the JSON document backend in src/api/_lib/db.ts. -/
structure JsonRecord where
  id : String
  title : String
  url : String
  category : Option String
  description : Option String
  visible : Bool
  createdAt : String
  updatedAt : String
deriving DecidableEq, Repr

/-- createBookmark from src/api/_lib/db.ts: builds the record and calls
bookmarks.unshift(bookmark), i.e. the new bookmark is PREPENDED to the stored
array; listBookmarks of this backend returns the array as stored. -/
def jsonCreateBookmark (data : BookmarkInput) (newId now : String)
    (st : List JsonRecord) : JsonRecord × List JsonRecord :=
  let bookmark : JsonRecord :=
    { id := newId, title := data.title, url := data.url
      category := data.category, description := data.description
      visible := data.visible, createdAt := now, updatedAt := now }
  (bookmark, bookmark :: st)

/-- Pre-existing record for the counterexample. -/
def jr0 : JsonRecord :=
  ⟨"old", "Old", "https://old", none, none, true, "t0", "t0"⟩

/-- C3 counterexample: on the JSON document backend the created bookmark is
stored FIRST, not appended at the end - the stored array after create on
[jr0] is [new, jr0], which differs from the append [jr0, new] the claim
requires for every backend. -/
theorem c3_json_backend_prepends :
    (jsonCreateBookmark ⟨"New", "https://new", none, none, true⟩ "new" "t1" [jr0]).2
        = (jsonCreateBookmark ⟨"New", "https://new", none, none, true⟩ "new" "t1" [jr0]).1
            :: [jr0]
      ∧ (jsonCreateBookmark ⟨"New", "https://new", none, none, true⟩ "new" "t1" [jr0]).2
        ≠ [jr0]
            ++ [(jsonCreateBookmark ⟨"New", "https://new", none, none, true⟩ "new" "t1" [jr0]).1] := by
  refine ⟨rfl, by decide⟩

/-- backupData from src/vercel/_lib/db.ts: skipped when no backup driver is
configured; when configured, the backup write runs inside try/catch and any
failure is logged and swallowed, so the call itself always returns
normally. -/
def backupData (configured : Bool) (writeResult : Except String Unit) :
    Except String Unit :=
  if configured then
    match writeResult with
    | Except.ok _ => Except.ok ()
    | Except.error _ => Except.ok ()
  else Except.ok ()

theorem backupData_ok (configured : Bool) (writeResult : Except String Unit) :
    backupData configured writeResult = Except.ok () := by
  cases writeResult <;> cases configured <;> rfl

/-- createBookmark write path with its effects made explicit: primary INSERT
outcome, backup driver configuration and backup write outcome. -/
def createBookmarkFull (primary : Except String Unit) (cfg : Bool)
    (bw : Except String Unit) (data : BookmarkInput) (newId : String)
    (now : Nat) (st : List Row) :
    Except String (BookmarkRecord × List Row) := do
  let _ ← primary
  let st2 := vercelCreateState data newId now st
  let _ ← backupData cfg bw
  pure (vercelCreateRecord data newId, st2)

/-- updateBookmark row update of src/vercel/_lib/db.ts (fields replaced,
order column and created_at untouched). -/
def updateBookmarkState (bid : String) (data : BookmarkInput) (st : List Row) :
    List Row :=
  st.map fun r =>
    if r.id = bid then
      { r with
        title := data.title, url := data.url,
        category := normalizeCategoryValue data.category,
        description := data.description, visible := data.visible }
    else r

/-- deleteBookmark of src/vercel/_lib/db.ts: DELETE FROM bookmarks WHERE id. -/
def deleteBookmarkState (bid : String) (st : List Row) : List Row :=
  st.filter fun r => !(r.id == bid)

def updateBookmarkFull (primary : Except String Unit) (cfg : Bool)
    (bw : Except String Unit) (bid : String) (data : BookmarkInput)
    (st : List Row) : Except String (List Row) := do
  let _ ← primary
  let st2 := updateBookmarkState bid data st
  let _ ← backupData cfg bw
  pure st2

def deleteBookmarkFull (primary : Except String Unit) (cfg : Bool)
    (bw : Except String Unit) (bid : String) (st : List Row) :
    Except String (List Row) := do
  let _ ← primary
  let st2 := deleteBookmarkState bid st
  let _ ← backupData cfg bw
  pure st2

def reorderBookmarksFull (primary : Except String Unit) (cfg : Bool)
    (bw : Except String Unit) (ids : List String) (st : List Row) :
    Except String (List BookmarkRecord × List Row) := do
  let _ ← primary
  let st2 := reorderBookmarks ids st
  let _ ← backupData cfg bw
  pure (listBookmarks st2, st2)

/-- reorderBookmarkCategories write-back: the same UPDATE sweep as
reorderBookmarks, driven by the ids of the reordered record list. -/
def reorderBookmarkCategoriesState (ks : List String) (st : List Row) :
    List Row :=
  reorderBookmarks
    ((reorderBookmarkCategories ks (listBookmarks st)).map BookmarkRecord.id) st

def reorderBookmarkCategoriesFull (primary : Except String Unit) (cfg : Bool)
    (bw : Except String Unit) (ks : List String) (st : List Row) :
    Except String (List BookmarkRecord × List Row) := do
  let _ ← primary
  let st2 := reorderBookmarkCategoriesState ks st
  let _ ← backupData cfg bw
  pure (reorderBookmarkCategories ks (listBookmarks st), st2)

def updateSettingsFull (primary : Except String Unit) (cfg : Bool)
    (bw : Except String Unit) (p : PartialSettings) (s : SettingsData) :
    Except String SettingsData := do
  let _ ← primary
  let s2 := updateSettings p s
  let _ ← backupData cfg bw
  pure s2

/-- C8: for every write-path operation, a failing backup write changes
nothing - the outcome equals the outcome with a successful backup write - and
whenever the primary write succeeded the operation reports success.  The
backupData wrapper itself always returns normally. -/
theorem c8_backup_failures_never_surface :
    (∀ (cfg : Bool) (bw : Except String Unit), backupData cfg bw = Except.ok ())
      ∧ (∀ (p : Except String Unit) (cfg : Bool) (bw : Except String Unit)
          (data : BookmarkInput) (newId : String) (now : Nat) (st : List Row),
          createBookmarkFull p cfg bw data newId now st
              = createBookmarkFull p cfg (Except.ok ()) data newId now st
            ∧ isOkE (createBookmarkFull (Except.ok ()) cfg bw data newId now st)
              = true)
      ∧ (∀ (p : Except String Unit) (cfg : Bool) (bw : Except String Unit)
          (bid : String) (data : BookmarkInput) (st : List Row),
          updateBookmarkFull p cfg bw bid data st
              = updateBookmarkFull p cfg (Except.ok ()) bid data st
            ∧ isOkE (updateBookmarkFull (Except.ok ()) cfg bw bid data st) = true)
      ∧ (∀ (p : Except String Unit) (cfg : Bool) (bw : Except String Unit)
          (bid : String) (st : List Row),
          deleteBookmarkFull p cfg bw bid st
              = deleteBookmarkFull p cfg (Except.ok ()) bid st
            ∧ isOkE (deleteBookmarkFull (Except.ok ()) cfg bw bid st) = true)
      ∧ (∀ (p : Except String Unit) (cfg : Bool) (bw : Except String Unit)
          (ids : List String) (st : List Row),
          reorderBookmarksFull p cfg bw ids st
              = reorderBookmarksFull p cfg (Except.ok ()) ids st
            ∧ isOkE (reorderBookmarksFull (Except.ok ()) cfg bw ids st) = true)
      ∧ (∀ (p : Except String Unit) (cfg : Bool) (bw : Except String Unit)
          (ks : List String) (st : List Row),
          reorderBookmarkCategoriesFull p cfg bw ks st
              = reorderBookmarkCategoriesFull p cfg (Except.ok ()) ks st
            ∧ isOkE (reorderBookmarkCategoriesFull (Except.ok ()) cfg bw ks st)
              = true)
      ∧ (∀ (p : Except String Unit) (cfg : Bool) (bw : Except String Unit)
          (ps : PartialSettings) (s : SettingsData),
          updateSettingsFull p cfg bw ps s
              = updateSettingsFull p cfg (Except.ok ()) ps s
            ∧ isOkE (updateSettingsFull (Except.ok ()) cfg bw ps s) = true) := by
  refine ⟨backupData_ok, ?_, ?_, ?_, ?_, ?_, ?_⟩ <;>
    intro p cfg bw <;> intros <;>
    constructor <;>
    simp [createBookmarkFull, updateBookmarkFull, deleteBookmarkFull,
      reorderBookmarksFull, reorderBookmarkCategoriesFull, updateSettingsFull,
      backupData_ok, isOkE] <;>
    rfl

end LiteMark
